import Mathlib

/-!
Shallow embedding of the offset binary min-heap implemented in src/heap.cpp.

The source class Heap<T> owns a buffer of length offset + size.  The
constructor Heap(v, offset) value-initializes the buffer (zeros for the
arithmetic element types used), copies v into positions offset..offset+size,
and calls heapify.  heapify drives an explicit work stack: it seeds the stack
with (offset + size) / 2, and on popping p it pushes p - 1 when p > offset,
reads the children at the absolute indices p*2+1 and p*2+2, and for each child
index c with c < size whose captured value is smaller than the compared slot
(storage[offset+p] for the left child, storage[p] for the right child, the
latter read after a possible left swap) swaps storage[c] with storage[p] and
pushes c.

Machine integers (std::size_t, the element type) are modelled as Nat and Int;
no arithmetic in the modelled code can overflow on the inputs considered.
Reads of the buffer are modelled with List.getD with default 0: the source
reads the child slots before the bounds check, but those reads are dead
whenever the index is out of range, so the default never influences a result.
The while loop is modelled with explicit fuel; the loop does not terminate on
all inputs, and the model returns none exactly when the fuel is exhausted
with a nonempty stack.
-/

namespace OffsetHeap

/-- Left child index as computed by the source, lchild_index: idx * 2 + 1,
an absolute buffer index with no offset adjustment. -/
def lchild_index (idx : Nat) : Nat := idx * 2 + 1

/-- Right child index as computed by the source, rchild_index: idx * 2 + 2. -/
def rchild_index (idx : Nat) : Nat := idx * 2 + 2

/-- swap_idx from the source: exchange the values at two buffer positions. -/
def swap_idx (st : List Int) (idx1 idx2 : Nat) : List Int :=
  (st.set idx1 (st.getD idx2 0)).set idx2 (st.getD idx1 0)

/-- One iteration of the while loop of Heap::heapify, for popped index p and
remaining stack rest.  Mirrors the source exactly: push p - 1 when p > offset;
capture both child values before any swap; swap and push the left child when
its index is below size and its captured value is below storage[offset + p];
swap and push the right child when its index is below size and its captured
value is below the current storage[p] (read after a possible left swap).
Returns the new stack (top first) and the new buffer. -/
def heapStep (offset size p : Nat) (rest : List Nat) (st : List Int) :
    List Nat × List Int :=
  let s1 := if offset < p then (p - 1) :: rest else rest
  let st1 := if lchild_index p < size ∧ st.getD (lchild_index p) 0 < st.getD (offset + p) 0
             then swap_idx st (lchild_index p) p else st
  let s2 := if lchild_index p < size ∧ st.getD (lchild_index p) 0 < st.getD (offset + p) 0
            then lchild_index p :: s1 else s1
  let st2 := if rchild_index p < size ∧ st.getD (rchild_index p) 0 < st1.getD p 0
             then swap_idx st1 (rchild_index p) p else st1
  let s3 := if rchild_index p < size ∧ st.getD (rchild_index p) 0 < st1.getD p 0
            then rchild_index p :: s2 else s2
  (s3, st2)

/-- The while loop of Heap::heapify over an explicit stack (head is the top),
with fuel.  Returns none exactly when the fuel runs out with a nonempty
stack. -/
def heapifyAux (offset size : Nat) : Nat → List Nat → List Int → Option (List Int)
  | _, [], st => some st
  | 0, _ :: _, _ => none
  | fuel + 1, p :: rest, st =>
    heapifyAux offset size fuel (heapStep offset size p rest st).1
      (heapStep offset size p rest st).2

/-- Heap::heapify: seeds the work stack with (offset + size) / 2 and runs the
loop. -/
def heapify (offset size fuel : Nat) (st : List Int) : Option (List Int) :=
  heapifyAux offset size fuel [(offset + size) / 2] st

/-- The sequence of indices popped from the work stack by Heap::heapify's
loop, in order: the sift-down roots the loop actually visits.  Same recursion
as heapifyAux, recording the popped index of every iteration performed. -/
def heapifyTrace (offset size : Nat) : Nat → List Nat → List Int → List Nat
  | _, [], _ => []
  | 0, _ :: _, _ => []
  | fuel + 1, p :: rest, st =>
    p :: heapifyTrace offset size fuel (heapStep offset size p rest st).1
      (heapStep offset size p rest st).2

/-- State of a Heap<T> instance: the buffer heap_, the live element count
size_, and the starting index offset_. -/
structure Heap where
  heap : List Int
  size : Nat
  offset : Nat
deriving DecidableEq

/-- Constructor Heap(v, offset): buffer of length v.size() + offset with
value-initialized (zero) padding, v copied to positions offset onward, then
heapify.  The fuel bounds the heapify loop; none means heapify still had a
nonempty work stack after fuel iterations. -/
def Heap.ofVecOffset (v : List Int) (offset fuel : Nat) : Option Heap :=
  (heapify offset v.length fuel (List.replicate offset 0 ++ v)).map fun st =>
    { heap := st, size := v.length, offset := offset }

/-- Top from the source: returns heap_[offset_]. -/
def Heap.Top (h : Heap) : Int := h.heap.getD h.offset 0

/-- set_offset from the source: reassign offset_ and re-run heapify on the
existing buffer. -/
def Heap.set_offset (h : Heap) (offset fuel : Nat) : Option Heap :=
  (heapify offset h.size fuel h.heap).map fun st =>
    { heap := st, size := h.size, offset := offset }

/-- Min-heap invariant over the live region, as the spec states it: for every
live index i = offset + j, the value there is at most the values at the
in-bounds children 2*(i-offset)+1+offset and 2*(i-offset)+2+offset. -/
def heapInv (offset count : Nat) (st : List Int) : Prop :=
  ∀ j, j < count →
    (2 * j + 1 < count → st.getD (offset + j) 0 ≤ st.getD (offset + (2 * j + 1)) 0) ∧
    (2 * j + 2 < count → st.getD (offset + j) 0 ≤ st.getD (offset + (2 * j + 2)) 0)

instance (offset count : Nat) (st : List Int) : Decidable (heapInv offset count st) := by
  unfold heapInv
  infer_instance

/-- Left child index formula as the spec words it: (idx - offset) * 2 + 1 +
offset, relative to the offset.  Modelled from the spec for comparison with
the source's lchild_index. -/
def specLchildIndex (offset idx : Nat) : Nat := (idx - offset) * 2 + 1 + offset

end OffsetHeap

namespace OffsetHeap

section Divergence

/-- The heapify loop configuration for the buffer built from [1, 5, 100, 2, 7, 8]
at offset 2 repeats with period 8: the loop pops 4, 3, 2 (swapping slots 5 and
2 and pushing 5), then 5, then 4, 3, 2 (swapping back), then 5, returning to
the seed configuration with the original buffer. -/
theorem heapifyAux_periodA (n : Nat) :
    heapifyAux 2 6 (n + 8) [4] [0, 0, 1, 5, 100, 2, 7, 8] =
      heapifyAux 2 6 n [4] [0, 0, 1, 5, 100, 2, 7, 8] := rfl

/-- The heapify loop never empties its stack on the buffer built from
[1, 5, 100, 2, 7, 8] at offset 2, whatever the fuel. -/
theorem heapifyAux_divergesA (n : Nat) :
    heapifyAux 2 6 n [4] [0, 0, 1, 5, 100, 2, 7, 8] = none := by
  induction n using Nat.strong_induction_on with
  | _ n ih =>
    rcases Nat.lt_or_ge n 8 with h | h
    · interval_cases n <;> rfl
    · obtain ⟨m, rfl⟩ := Nat.exists_eq_add_of_le h
      rw [Nat.add_comm 8 m, heapifyAux_periodA]
      exact ih m (by omega)

/-- The heapify loop configuration for the already-valid heap buffer
[0, 0, 0, 1, 5, 2, 3, 9] at offset 2 likewise repeats with period 8, swapping
slots 5 and 2 back and forth. -/
theorem heapifyAux_periodB (n : Nat) :
    heapifyAux 2 6 (n + 8) [4] [0, 0, 0, 1, 5, 2, 3, 9] =
      heapifyAux 2 6 n [4] [0, 0, 0, 1, 5, 2, 3, 9] := rfl

/-- The heapify loop never empties its stack on the valid heap buffer
[0, 0, 0, 1, 5, 2, 3, 9] at offset 2, whatever the fuel. -/
theorem heapifyAux_divergesB (n : Nat) :
    heapifyAux 2 6 n [4] [0, 0, 0, 1, 5, 2, 3, 9] = none := by
  induction n using Nat.strong_induction_on with
  | _ n ih =>
    rcases Nat.lt_or_ge n 8 with h | h
    · interval_cases n <;> rfl
    · obtain ⟨m, rfl⟩ := Nat.exists_eq_add_of_le h
      rw [Nat.add_comm 8 m, heapifyAux_periodB]
      exact ih m (by omega)

end Divergence

/-- C1.  Constructing from the sequence [2, 1] at offset 3 terminates and
leaves the buffer [0, 0, 0, 2, 1]: the live region holds 2 before 1, the value
at live index 3 exceeds its in-bounds child at index 4, so the min-heap
invariant over the live region fails after construction.  The seed
(offset + size) / 2 = 2 lies below the live region and its absolute children
fail the bound check against size, so heapify performs no swap at all. -/
theorem construction_violates_heap_inv :
    Heap.ofVecOffset [2, 1] 3 20 = some ⟨[0, 0, 0, 2, 1], 2, 3⟩ ∧
      ¬ heapInv 3 2 [0, 0, 0, 2, 1] := by
  constructor
  · rfl
  · decide

/-- C2.  On the heap constructed from [2, 1] at offset 3, Top returns
storage[offset] = 2, yet 1 is an element of the input sequence and 1 < 2, so
Top does not return the minimum of the input. -/
theorem top_not_minimum :
    (Heap.ofVecOffset [2, 1] 3 20).map Heap.Top = some 2 ∧
      (1 : Int) ∈ [(2 : Int), 1] ∧ (1 : Int) < 2 := by
  refine ⟨rfl, ?_, by decide⟩
  decide

/-- C4.  The source computes child indices absolutely: for parent index 3 at
offset 3 it uses left child 3 * 2 + 1 = 7, whereas the offset-relative formula
the claim states gives (3 - 3) * 2 + 1 + 3 = 4; the two disagree. -/
theorem child_index_mismatch :
    lchild_index 3 = 7 ∧ rchild_index 3 = 8 ∧ specLchildIndex 3 3 = 4 ∧
      lchild_index 3 ≠ specLchildIndex 3 3 := by
  refine ⟨rfl, rfl, rfl, ?_⟩
  decide

/-- C5.  Heap construction from [1, 5, 100, 2, 7, 8] at offset 2 never
terminates: the heapify work stack cycles with period 8, swapping buffer slots
5 and 2 back and forth forever, so no amount of fuel makes the loop reach an
empty stack. -/
theorem construction_diverges :
    ∀ fuel, Heap.ofVecOffset [1, 5, 100, 2, 7, 8] 2 fuel = none := by
  intro fuel
  show (heapifyAux 2 6 fuel [4] [0, 0, 1, 5, 100, 2, 7, 8]).map _ = none
  rw [heapifyAux_divergesA]
  rfl

/-- C6.  The buffer [0, 0, 0, 1, 5, 2, 3, 9] with offset 2 and count 6
satisfies the min-heap invariant over the live region, yet heapify on it is
not the identity: it swaps slots 5 and 2 (because storage[5] = 2 is below
storage[offset + 2] = storage[4] = 5) and then cycles forever, never returning
the (unchanged or any) buffer. -/
theorem heapify_not_idempotent :
    heapInv 2 6 [0, 0, 0, 1, 5, 2, 3, 9] ∧
      ∀ fuel, heapify 2 6 fuel [0, 0, 0, 1, 5, 2, 3, 9] = none := by
  refine ⟨by decide, fun fuel => ?_⟩
  show heapifyAux 2 6 fuel [4] [0, 0, 0, 1, 5, 2, 3, 9] = none
  exact heapifyAux_divergesB fuel

/-- C8.  On the heap built from [2, 1] at offset 3, heapify terminates having
popped only index 2 as a sift-down root: the live region is [3, 5), and the
live indices 3 and 4 are never visited, contradicting the claim that every
live index is visited exactly once from the highest live index down to the
offset. -/
theorem heapify_skips_live_indices :
    heapify 3 2 20 [0, 0, 0, 2, 1] = some [0, 0, 0, 2, 1] ∧
      heapifyTrace 3 2 20 [(3 + 2) / 2] [0, 0, 0, 2, 1] = [2] ∧
      3 ∉ heapifyTrace 3 2 20 [(3 + 2) / 2] [0, 0, 0, 2, 1] ∧
      4 ∉ heapifyTrace 3 2 20 [(3 + 2) / 2] [0, 0, 0, 2, 1] ∧
      3 < 3 + 2 ∧ 4 < 3 + 2 := by
  refine ⟨rfl, rfl, by decide, by decide, by decide, by decide⟩

/-- C7.  After any terminating construction from a sequence v at any offset,
the stored element count is exactly the length of v; the size field is set to
v.size() by the constructor and heapify never touches it. -/
theorem size_after_construction (v : List Int) (k fuel : Nat) (h : Heap)
    (hc : Heap.ofVecOffset v k fuel = some h) : h.size = v.length := by
  unfold Heap.ofVecOffset at hc
  obtain ⟨st, hst, rfl⟩ := Option.map_eq_some'.mp hc
  rfl

/-- C7 witness: constructing from the empty sequence at offset 5 terminates
(the seed index 2 has no in-range children, the loop pops it and stops) and the
resulting size is 0. -/
theorem size_after_construction_witness :
    Heap.ofVecOffset [] 5 3 = some ⟨[0, 0, 0, 0, 0], 0, 5⟩ ∧
      (⟨[0, 0, 0, 0, 0], 0, 5⟩ : Heap).size = ([] : List Int).length :=
  ⟨rfl, size_after_construction [] 5 3 _ rfl⟩

end OffsetHeap

namespace OffsetHeap

/-- Moving the value at position k of a list to the front while writing a at
position k is a permutation of putting a at the front of the unchanged list. -/
theorem getD_cons_set_perm : ∀ (t : List Int) (k : Nat) (a : Int), k < t.length →
    List.Perm (t.getD k 0 :: t.set k a) (a :: t)
  | b :: t, 0, a, _ => List.Perm.swap a b t
  | b :: t, k + 1, a, h =>
    ((List.Perm.swap b (t.getD k 0) (t.set k a)).trans
      ((getD_cons_set_perm t k a (Nat.lt_of_succ_lt_succ h)).cons b)).trans
      (List.Perm.swap a b t)

/-- swap_idx with both positions in range permutes the buffer. -/
theorem swap_idx_perm : ∀ (st : List Int) (i j : Nat), i < st.length → j < st.length →
    List.Perm (swap_idx st i j) st
  | a :: t, 0, 0, _, _ => List.Perm.refl (a :: t)
  | a :: t, 0, j + 1, _, hj => getD_cons_set_perm t j a (Nat.lt_of_succ_lt_succ hj)
  | a :: t, i + 1, 0, hi, _ => getD_cons_set_perm t i a (Nat.lt_of_succ_lt_succ hi)
  | a :: t, i + 1, j + 1, hi, hj =>
    (swap_idx_perm t i j (Nat.lt_of_succ_lt_succ hi) (Nat.lt_of_succ_lt_succ hj)).cons a

/-- swap_idx never changes the buffer length. -/
theorem swap_idx_length (st : List Int) (i j : Nat) :
    (swap_idx st i j).length = st.length := by
  simp [swap_idx]

/-- swap_idx leaves every position other than the two swapped ones alone. -/
theorem swap_idx_getD_ne (st : List Int) (i j n : Nat) (hi : i ≠ n) (hj : j ≠ n) :
    (swap_idx st i j).getD n 0 = st.getD n 0 := by
  unfold swap_idx
  rw [List.getD_eq_getElem?_getD, List.getElem?_set_ne hj, List.getElem?_set_ne hi,
    ← List.getD_eq_getElem?_getD]

/-- Invariant of the heapify work stack: every stacked index either lies at or
above the offset, or has no left child below size (and hence can trigger no
swap when popped). -/
def StackOK (offset size : Nat) (s : List Nat) : Prop :=
  ∀ e ∈ s, offset ≤ e ∨ size ≤ lchild_index e

/-- The seed index (offset + size) / 2 satisfies the stack invariant: its left
child 2 * seed + 1 is at least offset + size. -/
theorem seed_StackOK (offset size : Nat) : StackOK offset size [(offset + size) / 2] := by
  intro e he
  rw [List.mem_singleton] at he
  subst he
  right
  unfold lchild_index
  omega

/-- A swap whose two positions both lie in the live region is a permutation
that leaves the buffer length and every slot outside the region untouched. -/
theorem swap_within_inv (offset size : Nat) (st : List Int) (c p : Nat)
    (hlen : size ≤ st.length) (hc1 : offset ≤ c) (hc2 : c < size)
    (hp1 : offset ≤ p) (hp2 : p < size) :
    List.Perm (swap_idx st c p) st ∧ (swap_idx st c p).length = st.length ∧
      ∀ i, i < offset ∨ size ≤ i → (swap_idx st c p).getD i 0 = st.getD i 0 :=
  ⟨swap_idx_perm st c p (by omega) (by omega), swap_idx_length st c p,
    fun i hi => swap_idx_getD_ne st c p i (by omega) (by omega)⟩

/-- One heapify iteration on a stack element satisfying the stack invariant
permutes the buffer, preserves its length, writes only inside the absolute
index interval from offset to size, and pushes only indices that again satisfy
the stack invariant.  Every swap the source performs is guarded by a child
index below size, which by the invariant forces the popped parent to be at or
above the offset, placing both swapped positions inside that interval. -/
theorem heapStep_inv (offset size p : Nat) (rest : List Nat) (st : List Int)
    (hlen : size ≤ st.length) (hp : offset ≤ p ∨ size ≤ lchild_index p)
    (hrest : StackOK offset size rest) :
    List.Perm (heapStep offset size p rest st).2 st ∧
      (heapStep offset size p rest st).2.length = st.length ∧
      (∀ i, i < offset ∨ size ≤ i → (heapStep offset size p rest st).2.getD i 0 = st.getD i 0) ∧
      StackOK offset size (heapStep offset size p rest st).1 := by
  have hs1 : StackOK offset size (if offset < p then (p - 1) :: rest else rest) := by
    split
    · intro e he
      rcases List.mem_cons.mp he with rfl | he
      · left; omega
      · exact hrest e he
    · exact hrest
  unfold heapStep
  by_cases hc1 : lchild_index p < size ∧ st.getD (lchild_index p) 0 < st.getD (offset + p) 0
  · have hop : offset ≤ p := by
      rcases hp with h | h
      · exact h
      · omega
    have hpsize : p < size := by
      have := hc1.1
      unfold lchild_index at this
      omega
    have hlc1 : offset ≤ lchild_index p := by unfold lchild_index; omega
    obtain ⟨perm1, len1, frame1⟩ :=
      swap_within_inv offset size st (lchild_index p) p hlen hlc1 hc1.1 hop hpsize
    simp only [if_pos hc1]
    have hs2 : StackOK offset size
        (lchild_index p :: if offset < p then (p - 1) :: rest else rest) := by
      intro e he
      rcases List.mem_cons.mp he with rfl | he
      · left; exact hlc1
      · exact hs1 e he
    by_cases hc2 : rchild_index p < size ∧
        st.getD (rchild_index p) 0 < (swap_idx st (lchild_index p) p).getD p 0
    · have hrc1 : offset ≤ rchild_index p := by unfold rchild_index; omega
      obtain ⟨perm2, len2, frame2⟩ :=
        swap_within_inv offset size (swap_idx st (lchild_index p) p) (rchild_index p) p
          (by omega) hrc1 hc2.1 hop hpsize
      simp only [if_pos hc2]
      refine ⟨perm2.trans perm1, by omega, ?_, ?_⟩
      · intro i hi
        exact (frame2 i hi).trans (frame1 i hi)
      · intro e he
        rcases List.mem_cons.mp he with rfl | he
        · left; exact hrc1
        · exact hs2 e he
    · simp only [if_neg hc2]
      exact ⟨perm1, len1, frame1, hs2⟩
  · simp only [if_neg hc1]
    by_cases hc2 : rchild_index p < size ∧ st.getD (rchild_index p) 0 < st.getD p 0
    · have hop : offset ≤ p := by
        rcases hp with h | h
        · exact h
        · unfold lchild_index at h; unfold rchild_index at hc2; omega
      have hpsize : p < size := by
        have := hc2.1
        unfold rchild_index at this
        omega
      have hrc1 : offset ≤ rchild_index p := by unfold rchild_index; omega
      obtain ⟨perm2, len2, frame2⟩ :=
        swap_within_inv offset size st (rchild_index p) p hlen hrc1 hc2.1 hop hpsize
      simp only [if_pos hc2]
      refine ⟨perm2, len2, frame2, ?_⟩
      intro e he
      rcases List.mem_cons.mp he with rfl | he
      · left; exact hrc1
      · exact hs1 e he
    · simp only [if_neg hc2]
      exact ⟨List.Perm.refl st, True.intro, fun i _ => True.intro, hs1⟩

/-- Any terminating run of the heapify loop from a stack satisfying the stack
invariant permutes the buffer, preserves its length, and leaves every slot
below the offset or at or above size unchanged. -/
theorem heapifyAux_inv (offset size : Nat) :
    ∀ (fuel : Nat) (s : List Nat) (st st' : List Int),
      size ≤ st.length → StackOK offset size s →
      heapifyAux offset size fuel s st = some st' →
      List.Perm st' st ∧ st'.length = st.length ∧
        ∀ i, i < offset ∨ size ≤ i → st'.getD i 0 = st.getD i 0
  | 0, [], st, st', _, _, h => by
    have h2 : some st = some st' := h
    cases h2
    exact ⟨List.Perm.refl st, rfl, fun i _ => rfl⟩
  | _ + 1, [], st, st', _, _, h => by
    have h2 : some st = some st' := h
    cases h2
    exact ⟨List.Perm.refl st, rfl, fun i _ => rfl⟩
  | 0, p :: rest, st, st', _, _, h => by
    cases (h : (none : Option (List Int)) = some st')
  | fuel + 1, p :: rest, st, st', hlen, hok, h => by
    have hp := hok p (List.mem_cons_self p rest)
    have hrest : StackOK offset size rest := fun e he => hok e (List.mem_cons_of_mem p he)
    obtain ⟨perm2, len2, frame2, sok⟩ := heapStep_inv offset size p rest st hlen hp hrest
    obtain ⟨perm3, len3, frame3⟩ :=
      heapifyAux_inv offset size fuel (heapStep offset size p rest st).1
        (heapStep offset size p rest st).2 st' (by omega) sok h
    exact ⟨perm3.trans perm2, by omega, fun i hi => (frame3 i hi).trans (frame2 i hi)⟩

/-- C10.  Every write a terminating heapify run performs lands at an absolute
buffer index at or above the offset and below size: the padding slots below
the offset and the trailing slots at or above size (the last offset slots of
the live region, holding whatever the constructor copied there) are unchanged,
and the buffer length is preserved.  set_offset calls the same heapify with
its new offset, so this covers it as well. -/
theorem heapify_frame (offset size fuel : Nat) (st st' : List Int)
    (hlen : size ≤ st.length) (hc : heapify offset size fuel st = some st') :
    (∀ i, i < offset ∨ size ≤ i → st'.getD i 0 = st.getD i 0) ∧ st'.length = st.length := by
  obtain ⟨_, len, frame⟩ :=
    heapifyAux_inv offset size fuel [(offset + size) / 2] st st' hlen
      (seed_StackOK offset size) hc
  exact ⟨frame, len⟩

/-- C10 witness: heapify at offset 0 over [2, 1, 3] terminates with buffer
[1, 2, 3]; every slot outside the live region (none below offset 0, all
indices at or above 3) is unchanged and the length is preserved. -/
theorem heapify_frame_witness :
    ((3 : Nat) ≤ ([(2 : Int), 1, 3] : List Int).length ∧
      heapify 0 3 20 [2, 1, 3] = some [1, 2, 3]) ∧
      ((∀ i, i < 0 ∨ 3 ≤ i →
          ([(1 : Int), 2, 3] : List Int).getD i 0 = ([(2 : Int), 1, 3] : List Int).getD i 0) ∧
        ([(1 : Int), 2, 3] : List Int).length = ([(2 : Int), 1, 3] : List Int).length) :=
  ⟨⟨by decide, by rfl⟩, heapify_frame 0 3 20 [2, 1, 3] [1, 2, 3] (by decide) (by rfl)⟩

/-- C9.  A terminating set_offset call yields a heap whose offset field is the
new offset, whose element count is unchanged, and whose buffer has the same
length (no reallocation) and is a permutation of the old buffer (heapify at
most permutes it; nothing is copied to start at the new offset).  The
hypothesis that the count is at most the buffer length holds for every heap
the constructors build, whose buffers have length count + original offset. -/
theorem set_offset_spec (h : Heap) (k fuel : Nat) (h2 : Heap)
    (hlen : h.size ≤ h.heap.length)
    (hc : Heap.set_offset h k fuel = some h2) :
    h2.offset = k ∧ h2.size = h.size ∧ h2.heap.length = h.heap.length ∧
      List.Perm h2.heap h.heap := by
  unfold Heap.set_offset at hc
  obtain ⟨st, hst, rfl⟩ := Option.map_eq_some'.mp hc
  obtain ⟨perm, len, _⟩ :=
    heapifyAux_inv k h.size fuel [(k + h.size) / 2] h.heap st hlen
      (seed_StackOK k h.size) hst
  exact ⟨rfl, rfl, len, perm⟩

/-- C9 witness: set_offset 0 on the heap over buffer [2, 1, 3] with count 3
terminates, keeps offset 0, count 3 and buffer length 3, and the resulting
buffer [1, 2, 3] is a permutation of [2, 1, 3]. -/
theorem set_offset_spec_witness :
    ((⟨[2, 1, 3], 3, 0⟩ : Heap).size ≤ (⟨[2, 1, 3], 3, 0⟩ : Heap).heap.length ∧
      Heap.set_offset ⟨[2, 1, 3], 3, 0⟩ 0 20 = some ⟨[1, 2, 3], 3, 0⟩) ∧
      ((⟨[1, 2, 3], 3, 0⟩ : Heap).offset = 0 ∧
        (⟨[1, 2, 3], 3, 0⟩ : Heap).size = (⟨[2, 1, 3], 3, 0⟩ : Heap).size ∧
        (⟨[1, 2, 3], 3, 0⟩ : Heap).heap.length = (⟨[2, 1, 3], 3, 0⟩ : Heap).heap.length ∧
        List.Perm (⟨[1, 2, 3], 3, 0⟩ : Heap).heap (⟨[2, 1, 3], 3, 0⟩ : Heap).heap) :=
  ⟨⟨by decide, by rfl⟩, set_offset_spec ⟨[2, 1, 3], 3, 0⟩ 0 20 ⟨[1, 2, 3], 3, 0⟩
    (by decide) (by rfl)⟩

/-- C3.  After any terminating construction from a sequence v at offset k, the
live region (everything from index k on, of length exactly v.length) is a
permutation of v: construction neither loses nor duplicates elements outside
the padding region.  Every swap heapify performs stays inside the interval
from k to k + v.length, so the live multiset is preserved and the padding
prefix is untouched. -/
theorem construction_preserves_multiset (v : List Int) (k fuel : Nat) (h : Heap)
    (hc : Heap.ofVecOffset v k fuel = some h) :
    List.Perm (h.heap.drop k) v ∧ h.heap.length = k + v.length := by
  unfold Heap.ofVecOffset at hc
  obtain ⟨st, hst, rfl⟩ := Option.map_eq_some'.mp hc
  have hlen0 : (List.replicate k (0 : Int) ++ v).length = k + v.length := by simp
  obtain ⟨perm, len, frame⟩ :=
    heapifyAux_inv k v.length fuel [(k + v.length) / 2] (List.replicate k 0 ++ v) st
      (by omega) (seed_StackOK k v.length) hst
  have htake : st.take k = (List.replicate k (0 : Int) ++ v).take k := by
    apply List.ext_getElem?
    intro n
    rw [List.getElem?_take, List.getElem?_take]
    by_cases hn : n < k
    · simp only [if_pos hn]
      have hn1 : n < st.length := by omega
      have hn2 : n < (List.replicate k (0 : Int) ++ v).length := by omega
      rw [List.getElem?_eq_getElem hn1, List.getElem?_eq_getElem hn2]
      have hf := frame n (Or.inl hn)
      rw [List.getD_eq_getElem st 0 hn1, List.getD_eq_getElem _ 0 hn2] at hf
      rw [hf]
    · simp [hn]
  have hmult : (↑st : Multiset Int) = ↑(List.replicate k (0 : Int) ++ v) :=
    Multiset.coe_eq_coe.mpr perm
  have hsplit1 : (↑st : Multiset Int) = ↑(st.take k) + ↑(st.drop k) := by
    rw [Multiset.coe_add, List.take_append_drop]
  have hsplit2 : (↑(List.replicate k (0 : Int) ++ v) : Multiset Int) =
      ↑((List.replicate k (0 : Int) ++ v).take k) +
        ↑((List.replicate k (0 : Int) ++ v).drop k) := by
    rw [Multiset.coe_add, List.take_append_drop]
  have hdropm : (↑(st.drop k) : Multiset Int) =
      ↑((List.replicate k (0 : Int) ++ v).drop k) := by
    rw [hsplit1, hsplit2, htake] at hmult
    exact add_left_cancel hmult
  have hdropv : (List.replicate k (0 : Int) ++ v).drop k = v := by
    have hd := List.drop_left (List.replicate k (0 : Int)) v
    rw [List.length_replicate] at hd
    exact hd
  rw [hdropv] at hdropm
  exact ⟨Multiset.coe_eq_coe.mp hdropm, show st.length = k + v.length by omega⟩

/-- C3 witness: constructing from [3, 1, 2] at offset 0 terminates with buffer
[1, 3, 2], whose live region is a permutation of the input and whose length is
0 + 3. -/
theorem construction_preserves_multiset_witness :
    Heap.ofVecOffset [3, 1, 2] 0 20 = some ⟨[1, 3, 2], 3, 0⟩ ∧
      (List.Perm ((⟨[1, 3, 2], 3, 0⟩ : Heap).heap.drop 0) [3, 1, 2] ∧
        (⟨[1, 3, 2], 3, 0⟩ : Heap).heap.length = 0 + ([(3 : Int), 1, 2] : List Int).length) :=
  ⟨by rfl, construction_preserves_multiset [3, 1, 2] 0 20 ⟨[1, 3, 2], 3, 0⟩ (by rfl)⟩

end OffsetHeap
